import Mathlib

/-!
Verification of the membench record/replay core against its specification.

The Rust sources are shallowly embedded: byte slices become `List Nat`
(each element a byte value), machine integers become `Nat` with explicit
`% 2 ^ w` at the points where the source truncates or wraps, fallible
functions return `Option`/`Except`-like results, and operations that can
panic in Rust (index underflow / out-of-bounds slicing) are modelled by a
dedicated `panic`-style result constructor.
-/

namespace Membench

set_option maxRecDepth 4000

/-! ## Little-endian byte encoding helpers -/

/-- Encode `n` as `w` little-endian bytes (truncating at `256 ^ w`,
matching a `w`-byte machine-integer store). -/
def toBytesLE : Nat → Nat → List Nat
  | 0, _ => []
  | w + 1, n => (n % 256) :: toBytesLE w (n / 256)

/-- Decode a little-endian byte list into a natural number. -/
def fromBytesLE : List Nat → Nat
  | [] => 0
  | b :: bs => b + 256 * fromBytesLE bs

theorem toBytesLE_length (w n : Nat) : (toBytesLE w n).length = w := by
  induction w generalizing n with
  | zero => rfl
  | succ w ih => simp [toBytesLE, ih]

theorem fromBytesLE_toBytesLE (w n : Nat) (h : n < 256 ^ w) :
    fromBytesLE (toBytesLE w n) = n := by
  induction w generalizing n with
  | zero => simp [Nat.pow_zero] at h; simp [toBytesLE, fromBytesLE, h]
  | succ w ih =>
      have hdiv : n / 256 < 256 ^ w := by
        apply Nat.div_lt_of_lt_mul
        rw [Nat.pow_succ] at h
        omega
      simp [toBytesLE, fromBytesLE, ih _ hdiv, Nat.mod_add_div]

/-- Read `w` bytes little-endian from the front of a byte list. -/
def readLE (w : Nat) (bs : List Nat) : Option (Nat × List Nat) :=
  if bs.length < w then none else some (fromBytesLE (bs.take w), bs.drop w)

theorem readLE_append (w n : Nat) (rest : List Nat) (h : n < 256 ^ w) :
    readLE w (toBytesLE w n ++ rest) = some (n, rest) := by
  have hlen : (toBytesLE w n).length = w := toBytesLE_length w n
  unfold readLE
  rw [if_neg (by simp [hlen])]
  rw [List.take_left' hlen, List.drop_left' hlen, fromBytesLE_toBytesLE w n h]

/-! ## Data model (`src/profile/mod.rs`) -/

/-- Command kinds of `CommandType` in `src/profile/mod.rs`. -/
inductive CommandType
  | Get
  | Set
  | Delete
  | Noop
  deriving DecidableEq, Repr, Fintype

/-- Bincode enum tag of a `CommandType` value (variant index, in
declaration order). -/
def tagOfCmd : CommandType → Nat
  | .Get => 0
  | .Set => 1
  | .Delete => 2
  | .Noop => 3

/-- Inverse of `tagOfCmd`; fails on an out-of-range variant index. -/
def cmdOfTag : Nat → Option CommandType
  | 0 => some .Get
  | 1 => some .Set
  | 2 => some .Delete
  | 3 => some .Noop
  | _ => none

theorem cmdOfTag_tagOfCmd (c : CommandType) : cmdOfTag (tagOfCmd c) = some c := by
  cases c <;> rfl

/-- The `Event` record of `src/profile/mod.rs`, fields in declaration
order.  `flags` is the raw `u8` bit set; `value_size` models
`Option<NonZero<u32>>` as an optional `Nat`. -/
structure Event where
  timestamp : Nat
  conn_id : Nat
  cmd_type : CommandType
  flags : Nat
  key_hash : Nat
  key_size : Nat
  value_size : Option Nat
  deriving DecidableEq, Repr

/-- Range constraint on the optional non-zero `u32` value size. -/
def sizeOk : Option Nat → Prop
  | none => True
  | some v => 0 < v ∧ v < 2 ^ 32

instance (o : Option Nat) : Decidable (sizeOk o) := by
  cases o <;> simp [sizeOk] <;> infer_instance

/-- An event whose fields all fit their machine-integer types in the Rust
`Event` declaration. -/
def ValidEvent (e : Event) : Prop :=
  e.timestamp < 2 ^ 64 ∧ e.conn_id < 2 ^ 16 ∧ e.flags < 2 ^ 8 ∧
    e.key_hash < 2 ^ 64 ∧ e.key_size < 2 ^ 32 ∧ sizeOk e.value_size

instance (e : Event) : Decidable (ValidEvent e) := by
  unfold ValidEvent; infer_instance

/-! ## Protocol parser (`src/record/parser.rs`) -/

/-- The `ParsedCommand` record; `key_start`/`key_end` model the
`Range<usize>` key range. -/
structure ParsedCommand where
  cmd_type : CommandType
  key_start : Nat
  key_end : Nat
  value_size : Option Nat
  flags : Nat
  deriving DecidableEq, Repr

/-- The distinct `anyhow` error cases of `parse_command` /
`parse_response`. -/
inductive ParseErr
  | noNewline
  | emptyCommand
  | unknownCommand
  | missingKey
  | invalidInt
  | unknownResponse
  deriving DecidableEq, Repr

/-- Result of `parse_command`: success with the remainder slice, an
error, or a Rust panic (the `line_end - 1` underflow). -/
inductive ParseResult
  | ok : ParsedCommand → List Nat → ParseResult
  | err : ParseErr → ParseResult
  | panic
  deriving DecidableEq, Repr

/-- Byte-level model of `slice::split` on the space byte: splitting the
empty slice yields one empty part, and separators at the ends produce
empty parts, exactly as in Rust. -/
def splitOnSpace : List Nat → List (List Nat)
  | [] => [[]]
  | b :: rest =>
      if b = 32 then [] :: splitOnSpace rest
      else
        match splitOnSpace rest with
        | [] => [[b]]
        | p :: ps => (b :: p) :: ps

/-- ASCII lowercasing, byte by byte.  `parse_command` lowercases the
decoded token before matching; since every recognised token is plain
ASCII and no non-ASCII character lowercases onto any of those token
strings, per-byte ASCII lowercasing recognises exactly the same inputs. -/
def lowerByte (b : Nat) : Nat :=
  if 65 ≤ b ∧ b ≤ 90 then b + 32 else b

/-- Token table of `parse_command` (text protocol and meta protocol). -/
def cmdOfToken (tok : List Nat) : Option CommandType :=
  if tok = [103, 101, 116] then some .Get              -- get
  else if tok = [109, 103] then some .Get              -- mg
  else if tok = [115, 101, 116] then some .Set         -- set
  else if tok = [109, 115] then some .Set              -- ms
  else if tok = [100, 101, 108, 101, 116, 101] then some .Delete  -- delete
  else if tok = [109, 100] then some .Delete           -- md
  else if tok = [110, 111, 111, 112] then some .Noop   -- noop
  else if tok = [109, 110] then some .Noop             -- mn
  else none

/-- `u32::from_str` on a raw token: an optional leading plus,
then one or more ASCII digits, rejecting values at or above `2 ^ 32`. -/
def parseU32 (bs : List Nat) : Option Nat :=
  let ds := if bs.head? = some 43 then bs.tail else bs
  if ds = [] then none
  else if ds.all (fun b => decide (48 ≤ b ∧ b ≤ 57)) then
    let v := ds.foldl (fun acc b => acc * 10 + (b - 48)) 0
    if v < 2 ^ 32 then some v else none
  else none

/-- `MemcacheParser::parse_command`.  The slice bound `line_end - 1`
underflows (and the slicing panics) when the newline is the first byte,
modelled by `ParseResult.panic`. -/
def parseCommand (input : List Nat) : ParseResult :=
  match input.findIdx? (· = 10) with
  | none => .err .noNewline
  | some lineEnd =>
    if lineEnd = 0 then .panic
    else
      let line := input.take (lineEnd - 1)
      let rest := input.drop (lineEnd + 1)
      match splitOnSpace line with
      | [] => .err .emptyCommand
      | p0 :: ptail =>
        match cmdOfToken (p0.map lowerByte) with
        | none => .err .unknownCommand
        | some cmdType =>
          match ptail with
          | [] => .err .missingKey
          | p1 :: ptail2 =>
            let keyStart := p0.length + 1
            let keyEnd := keyStart + p1.length
            if cmdType = CommandType.Set then
              match ptail2 with
              | [] => .ok ⟨cmdType, keyStart, keyEnd, none, 0⟩ rest
              | p2 :: _ =>
                match parseU32 p2 with
                | none => .err .invalidInt
                | some v => .ok ⟨cmdType, keyStart, keyEnd, some v, 0⟩ rest
            else .ok ⟨cmdType, keyStart, keyEnd, none, 0⟩ rest

/-- Responses decoded by `parse_response`. -/
inductive Response
  | Found : Nat → Response
  | NotFound
  | Error
  deriving DecidableEq, Repr

/-- Result of `parse_response` (`consumed` counts the bytes of the
response line).  `panic` covers both the `line_end - 1` underflow and the
out-of-bounds `parts[1]` access on a bare `VA` line. -/
inductive RespResult
  | ok : Response → Nat → RespResult
  | err : ParseErr → RespResult
  | panic
  deriving DecidableEq, Repr

/-- `MemcacheParser::parse_response`. -/
def parseResponse (input : List Nat) : RespResult :=
  match input.findIdx? (· = 10) with
  | none => .err .noNewline
  | some lineEnd =>
    if lineEnd = 0 then .panic
    else
      let line := input.take (lineEnd - 1)
      match splitOnSpace line with
      | [] => .err .emptyCommand
      | p0 :: ptail =>
        if p0 = [86, 65] then                 -- VA
          match ptail with
          | [] => .panic                      -- parts[1] out of bounds
          | p1 :: _ =>
            match parseU32 p1 with
            | none => .err .invalidInt
            | some v => .ok (.Found v) (lineEnd + 1)
        else if p0 = [69, 78] then .ok .NotFound (lineEnd + 1)   -- EN
        else if p0 = [69, 88] then .ok .Error (lineEnd + 1)      -- EX
        else if p0 = [72, 68] then .ok (.Found 0) (lineEnd + 1)  -- HD
        else .err .unknownResponse

/-! ## Anonymizer (`src/record/anonymizer.rs`)

`Anonymizer::hash_key` builds a 16-byte SipHash key by repeating the
little-endian salt twice (so both 64-bit key halves equal the salt) and
hashes the key bytes with SipHash-1-3 via the Rust `Hash` implementation for `[u8]`,
which feeds the slice length as a length prefix followed by the raw
bytes.  The ARX core is modelled on `Nat` with explicit `% 2 ^ 64`. -/

/-- 64-bit word mask. -/
def w64 (n : Nat) : Nat := n % 2 ^ 64

/-- 64-bit left rotation. -/
def rotl64 (x n : Nat) : Nat := ((x <<< n) ||| (x >>> (64 - n))) % 2 ^ 64

/-- The four 64-bit state words of SipHash. -/
structure SipState where
  v0 : Nat
  v1 : Nat
  v2 : Nat
  v3 : Nat
  deriving DecidableEq, Repr

/-- One SIPROUND. -/
def sipRound (s : SipState) : SipState :=
  let v0 := w64 (s.v0 + s.v1)
  let v1 := rotl64 s.v1 13
  let v1 := v1 ^^^ v0
  let v0 := rotl64 v0 32
  let v2 := w64 (s.v2 + s.v3)
  let v3 := rotl64 s.v3 16
  let v3 := v3 ^^^ v2
  let v0 := w64 (v0 + v3)
  let v3 := rotl64 v3 21
  let v3 := v3 ^^^ v0
  let v2 := w64 (v2 + v1)
  let v1 := rotl64 v1 17
  let v1 := v1 ^^^ v2
  let v2 := rotl64 v2 32
  ⟨v0, v1, v2, v3⟩

/-- Absorb one 64-bit message word with a single compression round
(the `1` in SipHash-1-3). -/
def sipCompress (s : SipState) (m : Nat) : SipState :=
  let m := w64 m
  let s := { s with v3 := s.v3 ^^^ m }
  let s := sipRound s
  { s with v0 := s.v0 ^^^ m }

/-- The SipHash finalization: flip the low byte of `v2`, run the three
finalization rounds (the `3` in SipHash-1-3) and fold the state. -/
def sipFinish (s : SipState) : Nat :=
  let s1 : SipState := { s with v2 := s.v2 ^^^ 0xff }
  let s2 := sipRound (sipRound (sipRound s1))
  s2.v0 ^^^ s2.v1 ^^^ s2.v2 ^^^ s2.v3

/-- SipHash-1-3 of a byte message under a 128-bit key `(k0, k1)`. -/
def sipHash13 (k0 k1 : Nat) (msg : List Nat) : Nat :=
  let k0 := w64 k0
  let k1 := w64 k1
  let s0 : SipState :=
    ⟨k0 ^^^ 0x736f6d6570736575, k1 ^^^ 0x646f72616e646f6d,
     k0 ^^^ 0x6c7967656e657261, k1 ^^^ 0x7465646279746573⟩
  let nblocks := msg.length / 8
  let blocks := (List.range nblocks).map fun i => fromBytesLE ((msg.drop (8 * i)).take 8)
  let tail := msg.drop (8 * nblocks)
  let b := w64 (((msg.length % 256) <<< 56) ||| w64 (fromBytesLE tail))
  sipFinish (sipCompress (blocks.foldl sipCompress s0) b)

/-- `Anonymizer::hash_key`: SipHash-1-3 keyed with the salt in both key
halves, over the length-prefixed key bytes that `<[u8] as Hash>::hash`
writes into the hasher. -/
def hashKey (salt : Nat) (key : List Nat) : Nat :=
  sipHash13 salt salt (toBytesLE 8 key.length ++ key)

/-- All four SipHash state words fit in 64 bits. -/
def SipState.Bounded (s : SipState) : Prop :=
  s.v0 < 2 ^ 64 ∧ s.v1 < 2 ^ 64 ∧ s.v2 < 2 ^ 64 ∧ s.v3 < 2 ^ 64

theorem rotl64_lt (x n : Nat) : rotl64 x n < 2 ^ 64 :=
  Nat.mod_lt _ (by norm_num)

theorem w64_lt (n : Nat) : w64 n < 2 ^ 64 :=
  Nat.mod_lt _ (by norm_num)

theorem xor_lt_64 {a b : Nat} (ha : a < 2 ^ 64) (hb : b < 2 ^ 64) :
    a ^^^ b < 2 ^ 64 :=
  Nat.xor_lt_two_pow ha hb

theorem sipRound_bounded (s : SipState) : (sipRound s).Bounded :=
  ⟨w64_lt _, xor_lt_64 (rotl64_lt _ _) (w64_lt _), rotl64_lt _ _,
   xor_lt_64 (rotl64_lt _ _) (w64_lt _)⟩

theorem sipFinish_lt (s : SipState) : sipFinish s < 2 ^ 64 := by
  have h := sipRound_bounded (sipRound (sipRound { s with v2 := s.v2 ^^^ 0xff }))
  exact xor_lt_64 (xor_lt_64 (xor_lt_64 h.1 h.2.1) h.2.2.1) h.2.2.2

theorem sipHash13_lt (k0 k1 : Nat) (msg : List Nat) :
    sipHash13 k0 k1 msg < 2 ^ 64 := by
  unfold sipHash13
  exact sipFinish_lt _

/-! ## Stream reassembler (`src/record/stream_reassembler.rs`) -/

/-- The connection flow key `((src_ip, src_port), (dst_ip, dst_port))`. -/
def ConnKey := (String × Nat) × (String × Nat)

instance : DecidableEq ConnKey := by unfold ConnKey; infer_instance

/-- Reassembler state: per-flow segment buffers keyed by `ConnKey`.
The Rust `HashMap` is modelled as an association list (insertion
order; lookups are key-based so the order is immaterial). -/
structure Reassembler where
  streams : List (ConnKey × List (Nat × List Nat))
  deriving DecidableEq

/-- `StreamReassembler::new`. -/
def Reassembler.empty : Reassembler := ⟨[]⟩

/-- Insert a segment in front of the first strictly greater key, so that
earlier list elements stay ahead of later ones with an equal key. -/
def insertByKey (x : Nat × List Nat) : List (Nat × List Nat) → List (Nat × List Nat)
  | [] => [x]
  | y :: rest => if x.1 ≤ y.1 then x :: y :: rest else y :: insertByKey x rest

/-- Stable insertion sort on the sequence-number key, modelling the
stable `sort_by_key` of `add_packet`. -/
def sortByKey (l : List (Nat × List Nat)) : List (Nat × List Nat) :=
  l.foldr insertByKey []

/-- Append the new segment and re-sort (stably) by sequence number,
exactly as `add_packet` does with `push` + `sort_by_key`. -/
def addSegment (segs : List (Nat × List Nat)) (seq : Nat) (data : List Nat) :
    List (Nat × List Nat) :=
  sortByKey (segs ++ [(seq, data)])

/-- `StreamReassembler::add_packet`. -/
def Reassembler.addPacket (r : Reassembler) (k : ConnKey) (seq : Nat)
    (data : List Nat) : Reassembler :=
  let rec go : List (ConnKey × List (Nat × List Nat)) →
      List (ConnKey × List (Nat × List Nat))
    | [] => [(k, addSegment [] seq data)]
    | (k', segs) :: rest =>
        if k' = k then (k', addSegment segs seq data) :: rest
        else (k', segs) :: go rest
  ⟨go r.streams⟩

/-- `StreamReassembler::get_stream`: the concatenation of the segment
payloads of the flow in buffer order. -/
def Reassembler.getStream (r : Reassembler) (k : ConnKey) : List Nat :=
  match r.streams.find? (fun p => p.1 = k) with
  | none => []
  | some p => (p.2.map Prod.snd).flatten

/-! ## Profile codec: bincode payloads

`bincode::serialize` with the default configuration writes fixed-width
little-endian integers, enum variants as a `u32` variant index, `Option`
as a one-byte tag, `NonZero<u32>` as the inner `u32`, and maps as a `u64`
entry count followed by the entries. -/

/-- Bincode encoding of an `Event` (fields in declaration order). -/
def encodeEvent (e : Event) : List Nat :=
  toBytesLE 8 e.timestamp ++ toBytesLE 2 e.conn_id ++
    toBytesLE 4 (tagOfCmd e.cmd_type) ++ toBytesLE 1 e.flags ++
    toBytesLE 8 e.key_hash ++ toBytesLE 4 e.key_size ++
    (match e.value_size with
     | none => [0]
     | some v => 1 :: toBytesLE 4 v)

/-- Bincode decoding of an `Event`; trailing bytes are ignored, as by
`bincode::deserialize`.  A zero `NonZero<u32>` payload is rejected. -/
def decodeEvent (bs : List Nat) : Option Event := do
  let (ts, r1) ← readLE 8 bs
  let (cid, r2) ← readLE 2 r1
  let (tag, r3) ← readLE 4 r2
  let cmd ← cmdOfTag tag
  let (fl, r4) ← readLE 1 r3
  let (kh, r5) ← readLE 8 r4
  let (ks, r6) ← readLE 4 r5
  let (vtag, r7) ← readLE 1 r6
  if vtag = 0 then
    pure ⟨ts, cid, cmd, fl, kh, ks, none⟩
  else if vtag = 1 then do
    let (v, _) ← readLE 4 r7
    if v = 0 then none else pure ⟨ts, cid, cmd, fl, kh, ks, some v⟩
  else none

/-- The `ProfileMetadata` record of `src/profile/mod.rs`.  The Rust
`HashMap<CommandType, u64>` is modelled as an association list; the
writer below fills it in first-occurrence order (a `HashMap` iterates in
an arbitrary order, which deserializes to the same map). -/
structure ProfileMetadata where
  magic : Nat
  version : Nat
  total_events : Nat
  time_range : Nat × Nat
  unique_connections : Nat
  command_distribution : List (CommandType × Nat)
  deriving DecidableEq, Repr

/-- Bincode encoding of `ProfileMetadata` (fields in declaration
order). -/
def encodeMetadata (md : ProfileMetadata) : List Nat :=
  toBytesLE 4 md.magic ++ toBytesLE 1 md.version ++
    toBytesLE 8 md.total_events ++
    toBytesLE 8 md.time_range.1 ++ toBytesLE 8 md.time_range.2 ++
    toBytesLE 4 md.unique_connections ++
    toBytesLE 8 md.command_distribution.length ++
    (md.command_distribution.map fun p => toBytesLE 4 (tagOfCmd p.1) ++ toBytesLE 8 p.2).flatten

/-- Read `n` map entries `(u32 variant tag, u64 count)`. -/
def readPairs : Nat → List Nat → Option (List (CommandType × Nat) × List Nat)
  | 0, r => some ([], r)
  | n + 1, r => do
    let (tag, r1) ← readLE 4 r
    let c ← cmdOfTag tag
    let (v, r2) ← readLE 8 r1
    let (rest, r3) ← readPairs n r2
    pure ((c, v) :: rest, r3)

/-- Bincode decoding of `ProfileMetadata`. -/
def decodeMetadata (bs : List Nat) : Option ProfileMetadata := do
  let (magic, r1) ← readLE 4 bs
  let (ver, r2) ← readLE 1 r1
  let (tot, r3) ← readLE 8 r2
  let (t1, r4) ← readLE 8 r3
  let (t2, r5) ← readLE 8 r4
  let (uc, r6) ← readLE 4 r5
  let (n, r7) ← readLE 8 r6
  let (dist, _) ← readPairs n r7
  pure ⟨magic, ver, tot, (t1, t2), uc, dist⟩

/-! ## Profile writer (`src/record/writer.rs`) -/

/-- The mutable state of `ProfileWriter`: the bytes written so far plus
the running statistics.  `connections` models the `HashSet` as a
first-occurrence list of distinct ids; `dist` models the
`command_distribution` map as a first-occurrence association list. -/
structure WriterState where
  out : List Nat
  eventsWritten : Nat
  firstTimestamp : Option Nat
  lastTimestamp : Option Nat
  connections : List Nat
  dist : List (CommandType × Nat)
  deriving DecidableEq, Repr

/-- `ProfileWriter::new` (the freshly created state). -/
def initWriter : WriterState := ⟨[], 0, none, none, [], []⟩

/-- `HashSet::insert`. -/
def insertConn (l : List Nat) (c : Nat) : List Nat :=
  if c ∈ l then l else l ++ [c]

/-- `command_distribution.entry(cmd).or_insert(0) += 1`. -/
def bumpDist : List (CommandType × Nat) → CommandType → List (CommandType × Nat)
  | [], c => [(c, 1)]
  | (c', n) :: rest, c =>
      if c' = c then (c', n + 1) :: rest else (c', n) :: bumpDist rest c

/-- `ProfileWriter::write_event`: a `u16` little-endian length prefix
(the `as u16` cast truncates, which `toBytesLE 2` reproduces), the
bincode payload, and the statistics updates. -/
def writeEvent (st : WriterState) (e : Event) : WriterState :=
  let enc := encodeEvent e
  { out := st.out ++ toBytesLE 2 enc.length ++ enc
    eventsWritten := st.eventsWritten + 1
    firstTimestamp := some (st.firstTimestamp.getD e.timestamp)
    lastTimestamp := some e.timestamp
    connections := insertConn st.connections e.conn_id
    dist := bumpDist st.dist e.cmd_type }

/-- The metadata assembled by `ProfileWriter::finish`
(`connections.len() as u32` truncates to 32 bits). -/
def finishMeta (st : WriterState) : ProfileMetadata :=
  { magic := 0xDEADBEEF
    version := 2
    total_events := st.eventsWritten
    time_range :=
      match st.firstTimestamp, st.lastTimestamp with
      | some f, some l => (f, l)
      | _, _ => (0, 0)
    unique_connections := st.connections.length % 2 ^ 32
    command_distribution := st.dist }

/-- `ProfileWriter::finish`: metadata payload, `u16` metadata length,
then the `u32` magic `0xDEADBEEF`, all appended to the event bytes. -/
def finishWriter (st : WriterState) : List Nat :=
  let enc := encodeMetadata (finishMeta st)
  st.out ++ enc ++ toBytesLE 2 enc.length ++ toBytesLE 4 0xDEADBEEF

/-- Write a whole sequence of events and finalize, yielding the profile
file bytes. -/
def writeProfile (es : List Event) : List Nat :=
  finishWriter (es.foldl writeEvent initWriter)

/-- The metadata recorded for a sequence of events. -/
def recordedMetadata (es : List Event) : ProfileMetadata :=
  finishMeta (es.foldl writeEvent initWriter)

/-! ## Profile reader (`src/replay/reader.rs`) and streamer
(`src/replay/streamer.rs`) -/

/-- The event-region loop of `ProfileReader::new` with an explicit
structural fuel (any fuel at or above the region length behaves
identically, since every iteration consumes at least two bytes). -/
def readEventsFuel : Nat → List Nat → Option (List Event)
  | 0, _ => some []
  | fuel + 1, region =>
    if region.length < 2 then some []
    else
      let len := fromBytesLE (region.take 2)
      if 2 + len > region.length then some []
      else
        match decodeEvent ((region.drop 2).take len) with
        | none => none
        | some e =>
          match readEventsFuel fuel (region.drop (2 + len)) with
          | none => none
          | some es => some (e :: es)

/-- The event-region loop of `ProfileReader::new`, expressed on the
event region `data[0 .. metadata_start)`: read a `u16` length prefix,
then that many payload bytes; a truncated prefix or truncated payload
ends the loop silently, while a bincode decode failure is an error
(`none`).  The fuel equals the region length, which
`readEventsFuel_congr` shows is enough for the recursion never to run
out. -/
def readEvents (region : List Nat) : Option (List Event) :=
  readEventsFuel region.length region

theorem readEventsFuel_congr : ∀ (f1 f2 : Nat) (region : List Nat),
    region.length ≤ f1 → region.length ≤ f2 →
    readEventsFuel f1 region = readEventsFuel f2 region := by
  intro f1
  induction f1 with
  | zero =>
      intro f2 region h1 _
      have : region = [] := List.length_eq_zero.mp (Nat.le_zero.mp h1)
      subst this
      cases f2 <;> simp [readEventsFuel]
  | succ n ih =>
      intro f2 region h1 h2
      cases f2 with
      | zero =>
          have : region = [] := List.length_eq_zero.mp (Nat.le_zero.mp h2)
          subst this
          simp [readEventsFuel]
      | succ m =>
          simp only [readEventsFuel]
          by_cases hlt : region.length < 2
          · simp [hlt]
          · simp only [if_neg hlt]
            by_cases hlen : 2 + fromBytesLE (region.take 2) > region.length
            · simp [hlen]
            · simp only [if_neg hlen]
              have hdrop : (region.drop (2 + fromBytesLE (region.take 2))).length ≤ n := by
                simp only [List.length_drop]
                omega
              have hdrop2 : (region.drop (2 + fromBytesLE (region.take 2))).length ≤ m := by
                simp only [List.length_drop]
                omega
              rw [ih _ _ hdrop hdrop2]


instance {ε α : Type} [DecidableEq ε] [DecidableEq α] : DecidableEq (Except ε α) := fun x y =>
  match x, y with
  | .ok a, .ok b =>
      if h : a = b then .isTrue (by rw [h]) else .isFalse (by intro hh; cases hh; exact h rfl)
  | .error a, .error b =>
      if h : a = b then .isTrue (by rw [h]) else .isFalse (by intro hh; cases hh; exact h rfl)
  | .ok _, .error _ => .isFalse (by intro hh; cases hh)
  | .error _, .ok _ => .isFalse (by intro hh; cases hh)

/-- `ProfileReader::new` on the file bytes. -/
def readProfile (data : List Nat) :
    Except String (ProfileMetadata × List Event) :=
  if data.length < 4 then .error "file too small"
  else
    let endMarkerPos := data.length - 4
    let endMarker := fromBytesLE ((data.drop endMarkerPos).take 4)
    if endMarker ≠ 0xDEADBEEF then .error "invalid file format: missing end marker"
    else if endMarkerPos < 2 then .error "file too small for metadata"
    else
      let metadataLenPos := endMarkerPos - 2
      let metadataLen := fromBytesLE ((data.drop metadataLenPos).take 2)
      if metadataLenPos < metadataLen then .error "metadata length exceeds file size"
      else
        let metadataStart := metadataLenPos - metadataLen
        match decodeMetadata ((data.drop metadataStart).take metadataLen) with
        | none => .error "metadata deserialize failed"
        | some md =>
          match readEvents (data.take metadataStart) with
          | none => .error "event deserialize failed"
          | some es => .ok (md, es)

/-- Result of `ProfileStreamer::new`: the computed event-region upper
bound, an error, or the panic of the unchecked
`metadata_len_pos - metadata_len` underflow. -/
inductive StreamerInit
  | ok : Nat → StreamerInit
  | err : String → StreamerInit
  | panic
  deriving DecidableEq, Repr

/-- `ProfileStreamer::new` on the file bytes. -/
def streamerInit (data : List Nat) : StreamerInit :=
  if data.length < 6 then .err "file too small"
  else
    let endMarkerPos := data.length - 4
    let endMarker := fromBytesLE ((data.drop endMarkerPos).take 4)
    if endMarker ≠ 0xDEADBEEF then .err "invalid file format: missing end marker"
    else
      let metadataLenPos := endMarkerPos - 2
      let metadataLen := fromBytesLE ((data.drop metadataLenPos).take 2)
      if metadataLenPos < metadataLen then .panic
      else .ok (metadataLenPos - metadataLen)

/-! ## Record pipeline event construction (`src/record/main.rs`) -/

/-- The `Event` built by the record loop from a `ParsedCommand`: the key
bytes are taken from the parsed key range of the payload, hashed with
the anonymizer, and `value_size`/`flags`/`cmd_type` are copied from the
parsed command. -/
def eventOfParsed (ts conn salt : Nat) (payload : List Nat)
    (cmd : ParsedCommand) : Event :=
  { timestamp := ts
    conn_id := conn
    cmd_type := cmd.cmd_type
    flags := cmd.flags
    key_hash := hashKey salt ((payload.drop cmd.key_start).take (cmd.key_end - cmd.key_start))
    key_size := cmd.key_end - cmd.key_start
    value_size := cmd.value_size }

/-! ## Claim C2 — incomplete input handling of `parse_command` -/

/-- C2, counterexample: on the split buffer `b"mg fo"` (no newline yet),
`parse_command` does not return a dedicated Incomplete indication — it
returns the hard error `Err("no newline")`, the same error channel as any
malformed input. -/
theorem parse_command_incomplete_is_err :
    parseCommand [109, 103, 32, 102, 111] = .err .noNewline := by decide

/-- C2, amended: any input without a newline byte yields the error
`Err("no newline")` (which a buffering caller may treat as parse-later),
and re-parsing the recombined buffer `b"mg foo v\r\n"` succeeds with a
Get whose key range `3..6` covers `"foo"`. -/
theorem parse_command_incomplete_then_refeed :
    (∀ input : List Nat, (∀ b ∈ input, b ≠ 10) →
      parseCommand input = .err .noNewline) ∧
    parseCommand [109, 103, 32, 102, 111, 111, 32, 118, 13, 10] =
      .ok ⟨CommandType.Get, 3, 6, none, 0⟩ [] ∧
    (([109, 103, 32, 102, 111, 111, 32, 118, 13, 10] : List Nat).drop 3).take 3 =
      [102, 111, 111] := by
  refine ⟨?_, by decide, by decide⟩
  intro input h
  have hnone : input.findIdx? (fun b => b = 10) = none := by
    rw [List.findIdx?_eq_none_iff]
    intro x hx
    simpa using h x hx
  unfold parseCommand
  rw [hnone]

/-- C2, witness: the amended statement applied to the literal split
buffer `b"mg fo"` and its recombination. -/
theorem parse_command_incomplete_then_refeed_witness :
    parseCommand [109, 103, 32, 102, 111] = .err .noNewline ∧
    parseCommand [109, 103, 32, 102, 111, 111, 32, 118, 13, 10] =
      .ok ⟨CommandType.Get, 3, 6, none, 0⟩ [] :=
  ⟨parse_command_incomplete_then_refeed.1 [109, 103, 32, 102, 111] (by decide),
   parse_command_incomplete_then_refeed.2.1⟩

/-! ## Claim C3 — no-key commands `noop` / `mn` -/

/-- C3: the code rejects both no-key command lines.  `b"noop\r\n"` and
`b"mn\r\n"` reach the `parts.len() < 2` check and return
`Err("missing key")` instead of a Noop command — the `noop`/`mn` match
arms are dead code. -/
theorem parse_command_noop_rejected :
    parseCommand [110, 111, 111, 112, 13, 10] = .err .missingKey ∧
    parseCommand [109, 110, 13, 10] = .err .missingKey := by decide

/-! ## Claim C4 — `ms` with declared value body -/

/-- C4: on `b"ms k 5\r\nhello\r\n"` `parse_command` does return Set with
`value_size = 5`, but it does not consume the value body: the remainder
is `b"hello\r\n"`, not empty.  It also does not wait for
`value_length + 2` trailing bytes: the bare header `b"ms k 5\r\n"`
already returns Ok. -/
theorem parse_command_ms_body_left_in_remainder :
    parseCommand [109, 115, 32, 107, 32, 53, 13, 10, 104, 101, 108, 108, 111, 13, 10] =
      .ok ⟨CommandType.Set, 3, 4, some 5, 0⟩ [104, 101, 108, 108, 111, 13, 10] ∧
    ([104, 101, 108, 108, 111, 13, 10] : List Nat) ≠ [] ∧
    parseCommand [109, 115, 32, 107, 32, 53, 13, 10] =
      .ok ⟨CommandType.Set, 3, 4, some 5, 0⟩ [] := by decide

/-! ## Claim C5 — `value_size` presence vs `cmd_type` -/

/-- C5, counterexample: `b"set k\r\n"` (a set line with no declared
length) parses successfully to a Set command with `value_size = None`;
the pipeline event built from it is a Set event without a value size,
refuting `value_size.is_some() ⇔ cmd_type == Set`. -/
theorem set_event_without_value_size :
    parseCommand [115, 101, 116, 32, 107, 13, 10] =
      .ok ⟨CommandType.Set, 4, 5, none, 0⟩ [] ∧
    (eventOfParsed 0 0 12345 [115, 101, 116, 32, 107, 13, 10]
        ⟨CommandType.Set, 4, 5, none, 0⟩).cmd_type = CommandType.Set ∧
    (eventOfParsed 0 0 12345 [115, 101, 116, 32, 107, 13, 10]
        ⟨CommandType.Set, 4, 5, none, 0⟩).value_size = none ∧
    ¬((eventOfParsed 0 0 12345 [115, 101, 116, 32, 107, 13, 10]
        ⟨CommandType.Set, 4, 5, none, 0⟩).value_size.isSome = true ↔
      (eventOfParsed 0 0 12345 [115, 101, 116, 32, 107, 13, 10]
        ⟨CommandType.Set, 4, 5, none, 0⟩).cmd_type = CommandType.Set) := by
  refine ⟨by decide, rfl, rfl, by simp [eventOfParsed]⟩

/-- C5, amended: one direction of the invariant holds for every event
the record pipeline produces — if `value_size` is present the command is
Set (so Get/Delete/Noop events never carry a value size); the converse
fails only on set/ms lines with no declared length. -/
theorem event_value_size_some_implies_set :
    ∀ (input : List Nat) (ts conn salt : Nat) (cmd : ParsedCommand)
      (rest : List Nat),
      parseCommand input = .ok cmd rest →
      (eventOfParsed ts conn salt input cmd).value_size.isSome = true →
      (eventOfParsed ts conn salt input cmd).cmd_type = CommandType.Set := by
  intro input ts conn salt cmd rest h hs
  simp only [eventOfParsed] at hs ⊢
  unfold parseCommand at h
  repeat' first
    | exact ParseResult.noConfusion h
    | split at h
    | dsimp only [] at h
  all_goals (injection h with h1 h2; subst h1; simp_all)

/-- C5, witness: the amended implication at the literal
`b"ms k 5\r\nhello\r\n"` parse. -/
theorem event_value_size_some_implies_set_witness :
    (eventOfParsed 77 3 12345
        [109, 115, 32, 107, 32, 53, 13, 10, 104, 101, 108, 108, 111, 13, 10]
        ⟨CommandType.Set, 3, 4, some 5, 0⟩).cmd_type = CommandType.Set :=
  event_value_size_some_implies_set
    [109, 115, 32, 107, 32, 53, 13, 10, 104, 101, 108, 108, 111, 13, 10]
    77 3 12345 ⟨CommandType.Set, 3, 4, some 5, 0⟩
    [104, 101, 108, 108, 111, 13, 10] (by decide) (by decide)

/-! ## Claim C6 — anonymizer determinism and distinctness -/

/-- C6: `hash_key` is a pure function of `(salt, key)` producing a
64-bit value, and at the literal scenario inputs the hash separates
`"k1"` from `"k2"` under salt 12345 and is salt-sensitive on `"x"`
between salts 12345 and 54321. -/
theorem hash_key_deterministic_and_distinct :
    (∀ (salt : Nat) (key : List Nat),
      hashKey salt key = hashKey salt key ∧ hashKey salt key < 2 ^ 64) ∧
    hashKey 12345 [107, 49] ≠ hashKey 12345 [107, 50] ∧
    hashKey 12345 [120] ≠ hashKey 54321 [120] := by
  refine ⟨fun salt key => ⟨rfl, ?_⟩, by decide, by decide⟩
  unfold hashKey
  exact sipHash13_lt _ _ _

/-! ## Claim C9 — stream reassembler duplicate handling -/

/-- C9: adding the identical `(flow, seq, payload)` segment twice keeps
both copies — `get_stream` returns the payload twice, so duplicates are
not absorbed. -/
theorem duplicate_segment_not_absorbed :
    (((Reassembler.empty.addPacket (("127.0.0.1", 12345), ("127.0.0.1", 11211))
          1000 [104, 101, 108, 108, 111]).addPacket
        (("127.0.0.1", 12345), ("127.0.0.1", 11211))
          1000 [104, 101, 108, 108, 111]).getStream
      (("127.0.0.1", 12345), ("127.0.0.1", 11211))) =
      [104, 101, 108, 108, 111, 104, 101, 108, 108, 111] ∧
    ([104, 101, 108, 108, 111, 104, 101, 108, 108, 111] : List Nat) ≠
      [104, 101, 108, 108, 111] := by decide

/-! ## Claim C10 — parser panic on a leading newline -/

/-- C10: `parse_command` and `parse_response` are not total: when the
first byte is the newline byte 10 the newline position is 0, `line_end - 1`
underflows, and the slicing panics instead of returning `Err`. -/
theorem parse_panics_on_leading_newline :
    ∀ input : List Nat, input.head? = some 10 →
      parseCommand input = .panic ∧ parseResponse input = .panic := by
  intro input h
  cases input with
  | nil => simp at h
  | cons b rest =>
      simp only [List.head?_cons, Option.some.injEq] at h
      subst h
      constructor
      · unfold parseCommand
        rw [List.findIdx?_cons]
        simp
      · unfold parseResponse
        rw [List.findIdx?_cons]
        simp

/-- C10, witness: the one-byte input `b"\n"` panics in both parsing
functions. -/
theorem parse_panics_on_leading_newline_witness :
    parseCommand [10] = .panic ∧ parseResponse [10] = .panic :=
  parse_panics_on_leading_newline [10] rfl

/-! ## Writer state lemmas -/

theorem foldl_writeEvent_eventsWritten (es : List Event) :
    ∀ st : WriterState,
      (es.foldl writeEvent st).eventsWritten = st.eventsWritten + es.length := by
  induction es with
  | nil => intro st; simp
  | cons e es ih =>
      intro st
      simp only [List.foldl_cons, ih, writeEvent, List.length_cons]
      omega

theorem bumpDist_sum (d : List (CommandType × Nat)) (c : CommandType) :
    ((bumpDist d c).map Prod.snd).sum = (d.map Prod.snd).sum + 1 := by
  induction d with
  | nil => simp [bumpDist]
  | cons p rest ih =>
      obtain ⟨c', n⟩ := p
      by_cases h : c' = c <;> simp [bumpDist, h, ih] <;> omega

theorem foldl_writeEvent_distSum (es : List Event) :
    ∀ st : WriterState,
      (((es.foldl writeEvent st).dist.map Prod.snd)).sum =
        ((st.dist.map Prod.snd)).sum + es.length := by
  induction es with
  | nil => intro st; simp
  | cons e es ih =>
      intro st
      simp only [List.foldl_cons, ih, writeEvent, bumpDist_sum, List.length_cons]
      omega

theorem foldl_writeEvent_first (es : List Event) :
    ∀ st : WriterState,
      (es.foldl writeEvent st).firstTimestamp =
        (match st.firstTimestamp with
         | some t => some t
         | none => es.head?.map Event.timestamp) := by
  induction es with
  | nil => intro st; cases h : st.firstTimestamp <;> simp [h]
  | cons e es ih =>
      intro st
      simp only [List.foldl_cons, ih, writeEvent]
      cases h : st.firstTimestamp <;> simp [h, Option.getD]

theorem foldl_writeEvent_last (es : List Event) :
    ∀ st : WriterState,
      (es.foldl writeEvent st).lastTimestamp =
        (match es.getLast? with
         | some e => some e.timestamp
         | none => st.lastTimestamp) := by
  induction es with
  | nil => intro st; simp
  | cons e es ih =>
      intro st
      simp only [List.foldl_cons, ih, writeEvent]
      cases es with
      | nil => simp
      | cons f fs =>
          rw [List.getLast?_cons_cons]
          cases hx : (f :: fs).getLast? with
          | none => simp [List.getLast?_eq_none_iff] at hx
          | some x => simp [hx]

theorem head_timestamp_le_getLast (l : List Event) (e x : Event)
    (hx : (e :: l).getLast? = some x)
    (hp : (e :: l).Pairwise (fun a b => a.timestamp ≤ b.timestamp)) :
    e.timestamp ≤ x.timestamp := by
  cases l with
  | nil =>
      simp only [List.getLast?_singleton, Option.some.injEq] at hx
      subst hx; exact le_refl _
  | cons f fs =>
      rw [List.getLast?_cons_cons] at hx
      have hmem : x ∈ f :: fs := List.mem_of_getLast?_eq_some hx
      exact (List.pairwise_cons.mp hp).1 x hmem

/-! ## Claim C8 — metadata invariants of the writer -/

/-- C8, counterexample: writing two events with decreasing timestamps
(10 then 5) produces `time_range = (10, 5)` with `first_ts > last_ts`,
because the writer records the first and the most recent timestamp
without any ordering check. -/
theorem time_range_violated_by_decreasing_timestamps :
    (recordedMetadata [⟨10, 0, CommandType.Get, 0, 0, 1, none⟩,
        ⟨5, 0, CommandType.Get, 0, 0, 1, none⟩]).time_range = (10, 5) ∧
    ¬((recordedMetadata [⟨10, 0, CommandType.Get, 0, 0, 1, none⟩,
        ⟨5, 0, CommandType.Get, 0, 0, 1, none⟩]).time_range.1 ≤
      (recordedMetadata [⟨10, 0, CommandType.Get, 0, 0, 1, none⟩,
        ⟨5, 0, CommandType.Get, 0, 0, 1, none⟩]).time_range.2) := by decide

/-- C8, amended: for every sequence of written events the command
distribution counts sum to `total_events`; the `first_ts ≤ last_ts` half
holds whenever the events are written in nondecreasing timestamp order
(as a capture stream is). -/
theorem metadata_sum_and_time_range :
    ∀ es : List Event,
      (((recordedMetadata es).command_distribution.map Prod.snd)).sum =
        (recordedMetadata es).total_events ∧
      (es.Pairwise (fun a b => a.timestamp ≤ b.timestamp) →
        (recordedMetadata es).time_range.1 ≤ (recordedMetadata es).time_range.2) := by
  intro es
  constructor
  · simp only [recordedMetadata, finishMeta, foldl_writeEvent_distSum,
      foldl_writeEvent_eventsWritten, initWriter]
    simp
  · intro hp
    simp only [recordedMetadata, finishMeta, foldl_writeEvent_first,
      foldl_writeEvent_last, initWriter]
    cases es with
    | nil => simp
    | cons e rest =>
        cases hx : (e :: rest).getLast? with
        | none => simp [List.getLast?_eq_none_iff] at hx
        | some x =>
            simp only [List.head?_cons, Option.map_some']
            exact head_timestamp_le_getLast rest e x hx hp

/-- C8, witness: the amended statement at a two-event nondecreasing
profile. -/
theorem metadata_sum_and_time_range_witness :
    (((recordedMetadata [⟨5, 0, CommandType.Get, 0, 0, 1, none⟩,
        ⟨10, 1, CommandType.Set, 0, 0, 1, some 3⟩]).command_distribution.map
          Prod.snd)).sum =
      (recordedMetadata [⟨5, 0, CommandType.Get, 0, 0, 1, none⟩,
        ⟨10, 1, CommandType.Set, 0, 0, 1, some 3⟩]).total_events ∧
    (recordedMetadata [⟨5, 0, CommandType.Get, 0, 0, 1, none⟩,
        ⟨10, 1, CommandType.Set, 0, 0, 1, some 3⟩]).time_range.1 ≤
      (recordedMetadata [⟨5, 0, CommandType.Get, 0, 0, 1, none⟩,
        ⟨10, 1, CommandType.Set, 0, 0, 1, some 3⟩]).time_range.2 :=
  ⟨(metadata_sum_and_time_range _).1,
   (metadata_sum_and_time_range _).2 (by simp [List.pairwise_cons])⟩

/-! ## Codec lemmas -/

theorem pow256_1 : (256 : Nat) ^ 1 = 2 ^ 8 := by norm_num

theorem pow256_2 : (256 : Nat) ^ 2 = 2 ^ 16 := by norm_num

theorem pow256_4 : (256 : Nat) ^ 4 = 2 ^ 32 := by norm_num

theorem pow256_8 : (256 : Nat) ^ 8 = 2 ^ 64 := by norm_num

theorem readLE_exact (w n : Nat) (h : n < 256 ^ w) :
    readLE w (toBytesLE w n) = some (n, []) := by
  have := readLE_append w n [] h
  simpa using this

theorem readLE_one_cons (b : Nat) (rest : List Nat) :
    readLE 1 (b :: rest) = some (b, rest) := by
  simp [readLE, fromBytesLE]

theorem tagOfCmd_lt (c : CommandType) : tagOfCmd c < 256 ^ 4 := by
  cases c <;> norm_num [tagOfCmd]

theorem encodeEvent_length_lt (e : Event) : (encodeEvent e).length < 2 ^ 16 := by
  obtain ⟨ts, cid, ct, fl, kh, ks, vs⟩ := e
  cases vs <;> simp [encodeEvent, toBytesLE_length]

set_option maxHeartbeats 1600000 in
theorem decodeEvent_encodeEvent (e : Event) (h : ValidEvent e) :
    decodeEvent (encodeEvent e) = some e := by
  obtain ⟨ts, cid, ct, fl, kh, ks, vs⟩ := e
  obtain ⟨hts, hcid, hfl, hkh, hks, hvs⟩ := h
  have h8 : ts < 256 ^ 8 := by rw [pow256_8]; exact hts
  have h2 : cid < 256 ^ 2 := by rw [pow256_2]; exact hcid
  have h1 : fl < 256 ^ 1 := by rw [pow256_1]; exact hfl
  have h8b : kh < 256 ^ 8 := by rw [pow256_8]; exact hkh
  have h4 : ks < 256 ^ 4 := by rw [pow256_4]; exact hks
  have htag := tagOfCmd_lt ct
  cases vs with
  | none =>
      simp [encodeEvent, decodeEvent, List.append_assoc,
        readLE_append _ _ _ h8, readLE_append _ _ _ h2,
        readLE_append _ _ _ htag, readLE_append _ _ _ h1,
        readLE_append _ _ _ h8b, readLE_append _ _ _ h4,
        readLE_one_cons, cmdOfTag_tagOfCmd]
  | some v =>
      obtain ⟨hvpos, hvlt⟩ := hvs
      have hv4 : v < 256 ^ 4 := by rw [pow256_4]; exact hvlt
      have hvne : v ≠ 0 := Nat.pos_iff_ne_zero.mp hvpos
      simp [encodeEvent, decodeEvent, List.append_assoc,
        readLE_append _ _ _ h8, readLE_append _ _ _ h2,
        readLE_append _ _ _ htag, readLE_append _ _ _ h1,
        readLE_append _ _ _ h8b, readLE_append _ _ _ h4,
        readLE_one_cons, readLE_exact 4 v hv4,
        cmdOfTag_tagOfCmd, hvne]

/-- One framed event: `u16` length prefix followed by the payload. -/
def frame (e : Event) : List Nat :=
  toBytesLE 2 (encodeEvent e).length ++ encodeEvent e

/-- The event region the writer produces for a sequence of events. -/
def framedEvents (es : List Event) : List Nat :=
  (es.map frame).flatten

/-- One iteration of the reader event loop on a well-formed frame. -/
theorem readEvents_step (pay rest : List Nat) (e : Event)
    (hp : pay.length < 2 ^ 16) (hd : decodeEvent pay = some e) :
    readEvents (toBytesLE 2 pay.length ++ (pay ++ rest)) =
      (match readEvents rest with
       | none => none
       | some es => some (e :: es)) := by
  have hp' : pay.length < 256 ^ 2 := by rw [pow256_2]; exact hp
  have hR : (toBytesLE 2 pay.length ++ (pay ++ rest)).length =
      2 + pay.length + rest.length := by
    simp [toBytesLE_length]; omega
  have hfuel : (toBytesLE 2 pay.length ++ (pay ++ rest)).length =
      (1 + pay.length + rest.length) + 1 := by omega
  show readEventsFuel _ _ = _
  rw [hfuel]
  simp only [readEventsFuel]
  rw [if_neg (by omega)]
  rw [List.take_left' (toBytesLE_length _ _), fromBytesLE_toBytesLE _ _ hp']
  rw [if_neg (by omega)]
  rw [List.drop_left' (toBytesLE_length _ _), List.take_left' rfl]
  rw [hd]
  have hdropAll : (toBytesLE 2 pay.length ++ (pay ++ rest)).drop (2 + pay.length) = rest := by
    rw [← List.append_assoc]
    exact List.drop_left' (by simp [toBytesLE_length])
  rw [hdropAll]
  rw [readEventsFuel_congr (1 + pay.length + rest.length) rest.length rest
    (by omega) (le_refl _)]
  rfl

theorem readEvents_nil : readEvents [] = some [] := rfl

theorem readEvents_framed (es : List Event) (h : ∀ e ∈ es, ValidEvent e) :
    readEvents (framedEvents es) = some es := by
  induction es with
  | nil => simpa [framedEvents] using readEvents_nil
  | cons e es ih =>
      have hv := h e (by simp)
      have hrest : ∀ x ∈ es, ValidEvent x := fun x hx => h x (by simp [hx])
      have hshape : framedEvents (e :: es) =
          toBytesLE 2 (encodeEvent e).length ++ (encodeEvent e ++ framedEvents es) := by
        simp [framedEvents, frame, List.append_assoc]
      rw [hshape, readEvents_step _ _ e (encodeEvent_length_lt e)
        (decodeEvent_encodeEvent e hv), ih hrest]

/-! ## Metadata codec lemmas -/

theorem readPairs_append (l : List (CommandType × Nat)) (rest : List Nat)
    (h : ∀ p ∈ l, p.2 < 2 ^ 64) :
    readPairs l.length
      ((l.map fun p => toBytesLE 4 (tagOfCmd p.1) ++ toBytesLE 8 p.2).flatten ++ rest) =
      some (l, rest) := by
  induction l with
  | nil => simp [readPairs]
  | cons p ps ih =>
      obtain ⟨c, n⟩ := p
      have hn : n < 256 ^ 8 := by rw [pow256_8]; exact h (c, n) (by simp)
      simp [readPairs, List.append_assoc, readLE_append _ _ _ (tagOfCmd_lt c),
        cmdOfTag_tagOfCmd, readLE_append _ _ _ hn,
        ih (fun q hq => h q (by simp [hq]))]

theorem decodeMetadata_encodeMetadata (md : ProfileMetadata)
    (hm : md.magic < 2 ^ 32) (hv : md.version < 2 ^ 8)
    (ht : md.total_events < 2 ^ 64)
    (ht1 : md.time_range.1 < 2 ^ 64) (ht2 : md.time_range.2 < 2 ^ 64)
    (hu : md.unique_connections < 2 ^ 32)
    (hd : md.command_distribution.length < 2 ^ 64)
    (hc : ∀ p ∈ md.command_distribution, p.2 < 2 ^ 64) :
    decodeMetadata (encodeMetadata md) = some md := by
  obtain ⟨mg, ver, tot, ⟨t1, t2⟩, uc, dist⟩ := md
  have hm4 : mg < 256 ^ 4 := by rw [pow256_4]; exact hm
  have hv1 : ver < 256 ^ 1 := by rw [pow256_1]; exact hv
  have ht8 : tot < 256 ^ 8 := by rw [pow256_8]; exact ht
  have ht18 : t1 < 256 ^ 8 := by rw [pow256_8]; exact ht1
  have ht28 : t2 < 256 ^ 8 := by rw [pow256_8]; exact ht2
  have hu4 : uc < 256 ^ 4 := by rw [pow256_4]; exact hu
  have hd8 : dist.length < 256 ^ 8 := by rw [pow256_8]; exact hd
  have hpairs : readPairs dist.length
      ((dist.map fun p => toBytesLE 4 (tagOfCmd p.1) ++ toBytesLE 8 p.2).flatten) =
      some (dist, []) := by
    simpa using readPairs_append dist [] hc
  simp [encodeMetadata, decodeMetadata, List.append_assoc,
    readLE_append _ _ _ hm4, readLE_append _ _ _ hv1,
    readLE_append _ _ _ ht8, readLE_append _ _ _ ht18,
    readLE_append _ _ _ ht28, readLE_append _ _ _ hu4,
    readLE_append _ _ _ hd8, hpairs]

theorem encodeMetadata_length (md : ProfileMetadata) :
    (encodeMetadata md).length = 41 + 12 * md.command_distribution.length := by
  have haux : ∀ l : List (CommandType × Nat),
      ((l.map fun p => toBytesLE 4 (tagOfCmd p.1) ++ toBytesLE 8 p.2).flatten).length =
        12 * l.length := by
    intro l
    induction l with
    | nil => simp
    | cons p ps ih => simp [toBytesLE_length, ih]; omega
  simp [encodeMetadata, toBytesLE_length, haux]
  omega

/-! ## Writer output shape and metadata bounds -/

theorem foldl_writeEvent_out (es : List Event) :
    ∀ st : WriterState, (es.foldl writeEvent st).out = st.out ++ framedEvents es := by
  induction es with
  | nil => intro st; simp [framedEvents]
  | cons e es ih =>
      intro st
      simp only [List.foldl_cons, ih, writeEvent]
      simp [framedEvents, frame, List.append_assoc]

/-- The first components of a distribution list. -/
def distKeys (d : List (CommandType × Nat)) : List CommandType :=
  d.map Prod.fst

theorem bumpDist_keys (d : List (CommandType × Nat)) (c : CommandType) :
    distKeys (bumpDist d c) =
      if c ∈ distKeys d then distKeys d else distKeys d ++ [c] := by
  induction d with
  | nil => simp [bumpDist, distKeys]
  | cons p rest ih =>
      obtain ⟨c', n⟩ := p
      by_cases h : c' = c
      · subst h; simp [bumpDist, distKeys]
      · have h' : ¬c = c' := fun hc => h hc.symm
        simp only [bumpDist, if_neg h, distKeys, List.map_cons]
        simp only [distKeys] at ih
        rw [ih]
        by_cases hm : c ∈ List.map Prod.fst rest <;>
          simp [hm, h', List.mem_cons]

theorem bumpDist_keys_nodup (d : List (CommandType × Nat)) (c : CommandType)
    (h : (distKeys d).Nodup) : (distKeys (bumpDist d c)).Nodup := by
  rw [bumpDist_keys]
  split
  · exact h
  · next hmem =>
      simp [List.nodup_append, h]
      exact hmem

theorem foldl_writeEvent_dist_nodup (es : List Event) :
    ∀ st : WriterState, (distKeys st.dist).Nodup →
      (distKeys (es.foldl writeEvent st).dist).Nodup := by
  induction es with
  | nil => intro st h; exact h
  | cons e es ih =>
      intro st h
      exact ih _ (bumpDist_keys_nodup _ _ h)

theorem dist_length_le_four (d : List (CommandType × Nat))
    (h : (distKeys d).Nodup) : d.length ≤ 4 := by
  have hcard := h.length_le_card
  have hc : Fintype.card CommandType = 4 := by decide
  simpa [distKeys, hc] using hcard

theorem dist_count_le_sum (d : List (CommandType × Nat)) (p : CommandType × Nat)
    (hp : p ∈ d) : p.2 ≤ (d.map Prod.snd).sum :=
  List.single_le_sum (fun x _ => Nat.zero_le x) p.2 (List.mem_map_of_mem Prod.snd hp)

theorem recordedMetadata_time_range_lt (es : List Event)
    (hv : ∀ e ∈ es, ValidEvent e) :
    (recordedMetadata es).time_range.1 < 2 ^ 64 ∧
      (recordedMetadata es).time_range.2 < 2 ^ 64 := by
  simp only [recordedMetadata, finishMeta, foldl_writeEvent_first,
    foldl_writeEvent_last, initWriter]
  cases es with
  | nil => norm_num
  | cons e rest =>
      cases hx : (e :: rest).getLast? with
      | none => simp [List.getLast?_eq_none_iff] at hx
      | some x =>
          have hmemx : x ∈ e :: rest := List.mem_of_getLast?_eq_some hx
          have hx64 := (hv x hmemx).1
          have he64 := (hv e (by simp)).1
          simp only [hx, List.head?_cons, Option.map_some']
          exact ⟨by simpa using he64, by simpa using hx64⟩

/-! ## Reader on a well-formed file layout -/

theorem readProfile_layout (A B : List Nat) (md : ProfileMetadata) (es : List Event)
    (hB : B.length < 2 ^ 16)
    (hdec : decodeMetadata B = some md)
    (hev : readEvents A = some es) :
    readProfile (A ++ B ++ toBytesLE 2 B.length ++ toBytesLE 4 0xDEADBEEF) =
      .ok (md, es) := by
  have hB2 : B.length < 256 ^ 2 := by rw [pow256_2]; exact hB
  set L := A ++ B ++ toBytesLE 2 B.length ++ toBytesLE 4 0xDEADBEEF with hL
  have hLlen : L.length = A.length + B.length + 6 := by
    simp only [hL, List.length_append, toBytesLE_length]
  have h1 : L.length - 4 = ((A ++ B) ++ toBytesLE 2 B.length).length := by
    simp only [List.length_append, toBytesLE_length, hLlen]
    omega
  have hdrop4 : L.drop (L.length - 4) = toBytesLE 4 0xDEADBEEF := by
    rw [h1, hL]
    exact List.drop_left _ _
  have hEM : fromBytesLE ((L.drop (L.length - 4)).take 4) = 0xDEADBEEF := by
    rw [hdrop4, List.take_of_length_le (by simp [toBytesLE_length])]
    exact fromBytesLE_toBytesLE 4 _ (by norm_num)
  have hL2 : L = (A ++ B) ++ (toBytesLE 2 B.length ++ toBytesLE 4 0xDEADBEEF) := by
    simp [hL]
  have h2 : L.length - 6 = (A ++ B).length := by
    simp only [List.length_append, hLlen]
    omega
  have hdrop6 : (L.drop (L.length - 6)).take 2 = toBytesLE 2 B.length := by
    rw [h2, hL2, List.drop_left]
    exact List.take_left' (toBytesLE_length _ _)
  have hMlen : fromBytesLE ((L.drop (L.length - 6)).take 2) = B.length := by
    rw [hdrop6]
    exact fromBytesLE_toBytesLE 2 _ hB2
  have hL3 : L = A ++ (B ++ (toBytesLE 2 B.length ++ toBytesLE 4 0xDEADBEEF)) := by
    simp [hL]
  have h3 : L.length - 4 - 2 = L.length - 6 := by omega
  have h4 : L.length - 6 - B.length = A.length := by
    simp only [hLlen]
    omega
  have htakeA : L.take A.length = A := by
    rw [hL3]; exact List.take_left _ _
  have hdropmeta : (L.drop A.length).take B.length = B := by
    rw [hL3, List.drop_left]
    exact List.take_left _ _
  simp only [readProfile]
  rw [if_neg (show ¬L.length < 4 by omega)]
  rw [h3, hEM, hMlen]
  rw [if_neg (by simp)]
  rw [if_neg (show ¬L.length - 4 < 2 by omega)]
  rw [if_neg (show ¬L.length - 6 < B.length by omega)]
  rw [h4, hdropmeta, hdec, htakeA, hev]

/-- The round-trip scenario event of the specification:
`{timestamp:12345, conn_id:7, cmd_type:Get, key_hash:0xdeadbeef,
key_size:42, value_size:None, flags:empty}`. -/
def ev1 : Event := ⟨12345, 7, CommandType.Get, 0, 0xdeadbeef, 42, none⟩

/-! ## Claim C1 — profile round-trip -/

/-- C1: writing any sequence of valid events and finalizing yields a
file that `ProfileReader::new` parses back into exactly the same events,
in order, with `metadata.total_events` equal to the number of events
written. -/
theorem profile_roundtrip (es : List Event)
    (hv : ∀ e ∈ es, ValidEvent e) (hn : es.length < 2 ^ 64) :
    readProfile (writeProfile es) = .ok (recordedMetadata es, es) ∧
      (recordedMetadata es).total_events = es.length := by
  have hout : (es.foldl writeEvent initWriter).out = framedEvents es := by
    simpa [initWriter] using foldl_writeEvent_out es initWriter
  have htot : (recordedMetadata es).total_events = es.length := by
    simp [recordedMetadata, finishMeta, foldl_writeEvent_eventsWritten, initWriter]
  have hnodup : (distKeys (es.foldl writeEvent initWriter).dist).Nodup :=
    foldl_writeEvent_dist_nodup es initWriter (by simp [initWriter, distKeys])
  have hdlen : (recordedMetadata es).command_distribution.length ≤ 4 :=
    dist_length_le_four _ hnodup
  have hsum : (((recordedMetadata es).command_distribution.map Prod.snd)).sum = es.length := by
    simp [recordedMetadata, finishMeta, foldl_writeEvent_distSum, initWriter]
  have hBlen : (encodeMetadata (recordedMetadata es)).length < 2 ^ 16 := by
    rw [encodeMetadata_length]
    omega
  have htr := recordedMetadata_time_range_lt es hv
  have hdec : decodeMetadata (encodeMetadata (recordedMetadata es)) =
      some (recordedMetadata es) := by
    apply decodeMetadata_encodeMetadata
    · norm_num [recordedMetadata, finishMeta]
    · norm_num [recordedMetadata, finishMeta]
    · rw [htot]; exact hn
    · exact htr.1
    · exact htr.2
    · exact Nat.mod_lt _ (by norm_num)
    · omega
    · intro p hp
      have hle := dist_count_le_sum _ p hp
      rw [hsum] at hle
      omega
  constructor
  · have hwp : writeProfile es =
        framedEvents es ++ encodeMetadata (recordedMetadata es) ++
          toBytesLE 2 (encodeMetadata (recordedMetadata es)).length ++
          toBytesLE 4 0xDEADBEEF := by
      simp [writeProfile, finishWriter, hout, recordedMetadata, List.append_assoc]
    rw [hwp]
    exact readProfile_layout (framedEvents es) (encodeMetadata (recordedMetadata es))
      (recordedMetadata es) es hBlen hdec (readEvents_framed es hv)
  · exact htot

/-- C1, witness: the one-event scenario profile round-trips with
`total_events = 1`. -/
theorem profile_roundtrip_witness :
    readProfile (writeProfile [ev1]) = .ok (recordedMetadata [ev1], [ev1]) ∧
      (recordedMetadata [ev1]).total_events = 1 :=
  profile_roundtrip [ev1] (by decide) (by decide)

/-! ## Claim C7 — tail trailer parsing of reader and streamer -/

/-- C7: both `ProfileReader::new` and `ProfileStreamer::new` reject any
file whose last four bytes do not decode to the little-endian magic
`0xDEADBEEF`; on success the two bytes before the magic give the
metadata length `M`, the `M` bytes before them are the metadata payload,
and events are decoded exactly from `[0 .. file_len - 4 - 2 - M)`. -/
theorem tail_reader_magic_and_regions :
    ∀ data : List Nat,
      (¬(4 ≤ data.length ∧
          fromBytesLE ((data.drop (data.length - 4)).take 4) = 0xDEADBEEF) →
        (∃ m, readProfile data = .error m) ∧ (∃ m, streamerInit data = .err m)) ∧
      (∀ md evs, readProfile data = .ok (md, evs) →
        6 ≤ data.length ∧
        fromBytesLE ((data.drop (data.length - 6)).take 2) + 6 ≤ data.length ∧
        decodeMetadata ((data.drop (data.length - 6 -
            fromBytesLE ((data.drop (data.length - 6)).take 2))).take
              (fromBytesLE ((data.drop (data.length - 6)).take 2))) = some md ∧
        readEvents (data.take (data.length - 6 -
            fromBytesLE ((data.drop (data.length - 6)).take 2))) = some evs) ∧
      (∀ b, streamerInit data = .ok b →
        b = data.length - 6 - fromBytesLE ((data.drop (data.length - 6)).take 2)) := by
  intro data
  refine ⟨?_, ?_, ?_⟩
  · intro h
    by_cases h4 : data.length < 4
    · refine ⟨⟨"file too small", by simp [readProfile, h4]⟩,
        ⟨"file too small", by simp [streamerInit]; omega⟩⟩
    · have hmag : fromBytesLE ((data.drop (data.length - 4)).take 4) ≠ 0xDEADBEEF :=
        fun hc => h ⟨by omega, hc⟩
      refine ⟨⟨"invalid file format: missing end marker",
        by simp [readProfile, h4, hmag]⟩, ?_⟩
      by_cases h6 : data.length < 6
      · exact ⟨"file too small", by simp [streamerInit, h6]⟩
      · exact ⟨"invalid file format: missing end marker",
          by simp [streamerInit, h6, hmag]⟩
  · intro md evs h
    simp only [readProfile] at h
    split at h
    · exact Except.noConfusion h
    next h4 =>
      split at h
      · exact Except.noConfusion h
      next hmag =>
        split at h
        · exact Except.noConfusion h
        next h2 =>
          split at h
          · exact Except.noConfusion h
          next h3 =>
            have h6eq : data.length - 4 - 2 = data.length - 6 := by omega
            rw [h6eq] at h h3
            split at h
            · exact Except.noConfusion h
            next md' hmd =>
              split at h
              · exact Except.noConfusion h
              next es' hes =>
                injection h with h'
                injection h' with hmdeq heseq
                subst hmdeq
                subst heseq
                exact ⟨by omega, by omega, hmd, hes⟩
  · intro b h
    simp only [streamerInit] at h
    split at h
    · exact StreamerInit.noConfusion h
    next h6 =>
      have h6eq : data.length - 4 - 2 = data.length - 6 := by omega
      rw [h6eq] at h
      split at h
      · exact StreamerInit.noConfusion h
      next hmag =>
        split at h
        · exact StreamerInit.noConfusion h
        next h3 =>
          injection h with h'
          subst h'
          rfl

/-- C7, witness: the empty file is rejected by both, and the one-event
one-event profile has its event region parsed exactly as the tail arithmetic
prescribes. -/
theorem tail_reader_magic_and_regions_witness :
    (∃ m, readProfile [] = Except.error m) ∧
    (∃ m, streamerInit [] = StreamerInit.err m) ∧
    6 ≤ (writeProfile [ev1]).length ∧
    readEvents ((writeProfile [ev1]).take ((writeProfile [ev1]).length - 6 -
      fromBytesLE (((writeProfile [ev1]).drop
        ((writeProfile [ev1]).length - 6)).take 2))) = some [ev1] := by
  have h0 := (tail_reader_magic_and_regions []).1 (by decide)
  have h1 := (tail_reader_magic_and_regions (writeProfile [ev1])).2.1
    (recordedMetadata [ev1]) [ev1] (by decide)
  exact ⟨h0.1, h0.2, h1.1, h1.2.2.2⟩

end Membench
